import Mathlib

/-!
Verification development for `cryptage.py` (repository YoyoChaud/chiffrement).

The script has two pipelines:
* `sauvegarder_et_chiffrer` (backup): copy a file, or every immediate child of a
  directory, to a destination, Fernet-encrypt each copy in place, then persist
  the key according to the key-argument policy (lines 89-98 of the source);
* `dechiffrer_fichiers` (restore): load the key, decrypt each entry, write the
  plaintext under the name with the literal substring `.encrypted` removed, and
  delete the ciphertext artifact.

The embedding models paths as character lists, the filesystem as an association
list of regular files plus a list of directories with their listings (directory
listings are snapshots, matching `os.listdir` which returns a snapshot list),
and the external `cryptography.fernet` primitive symbolically.  Machine-level
byte contents are `List Nat`.
-/

namespace Cryptage

/-- Paths and file names, as in the Python source, are plain strings; we model
them as lists of characters so that all path arithmetic is executable. -/
abbrev Path := List Char

/-- Raw byte sequences (file plaintext, key material). -/
abbrev Bytes := List Nat

/-- The literal `.encrypted` suffix appended by the backup pipeline
(source lines 59, 76, 78) and removed by the restore pipeline (134, 149). -/
def encSuffix : Path := ".encrypted".toList

/-- The literal `_chiffre` suffix used for the default directory destination
(source line 51). -/
def chiffreSuffix : Path := "_chiffre".toList

/-- The hardcoded key file name `cle.key` (source lines 91, 113, 124). -/
def keyName : Path := "cle.key".toList

/-- Model of `os.path.dirname`: everything before the last slash, the empty
string when there is no slash. -/
def dirname (p : Path) : Path :=
  ((p.reverse.dropWhile (fun c => c ≠ '/')).drop 1).reverse

/-- Model of `os.path.basename`: everything after the last slash. -/
def basename (p : Path) : Path :=
  (p.reverse.takeWhile (fun c => c ≠ '/')).reverse

/-- Model of `os.path.join` for the shapes the script uses (the right operand
is a relative name): `join("", b) = b` and otherwise `a ++ "/" ++ b`. -/
def joinP (a b : Path) : Path :=
  if a = [] then b else a ++ '/' :: b

/-- Does `s` start with `pat`? (Executable prefix test used by the
`str.replace` model.) -/
def leadsWith : Path → Path → Bool
  | [], _ => true
  | _ :: _, [] => false
  | a :: as, b :: bs => a == b && leadsWith as bs

/-- Is `p` a path strictly inside directory `d`, i.e. does it start with
`d ++ "/"`? -/
def isUnder (d p : Path) : Bool := leadsWith (d ++ ['/']) p

/-- Does the path `p` end with `suf`? -/
def endsWith (suf p : Path) : Bool := leadsWith suf.reverse p.reverse

/-- Does `pat` occur as a contiguous substring of `s`? -/
def occursIn (pat : Path) : Path → Bool
  | [] => pat == []
  | c :: rest => leadsWith pat (c :: rest) || occursIn pat rest

/-- Fuelled worker for the model of Python `str.replace`: scan left to right,
replacing every non-overlapping occurrence of `pat` by `rep`.  The fuel is the
length of the string, consumed one character per step. -/
def replaceAllAux (pat rep : Path) : Nat → Path → Path
  | _, [] => []
  | 0, s => s
  | fuel + 1, c :: rest =>
    if pat ≠ [] ∧ leadsWith pat (c :: rest) then
      rep ++ replaceAllAux pat rep fuel (rest.drop (pat.length - 1))
    else
      c :: replaceAllAux pat rep fuel rest

/-- Model of Python `s.replace(pat, rep)` (for non-empty `pat`, the only use in
the source: `fichier.replace('.encrypted', '')`, lines 134 and 149): every
non-overlapping occurrence of `pat` is replaced, scanning left to right. -/
def replaceAll (pat rep s : Path) : Path :=
  replaceAllAux pat rep s.length s

/-- File contents.  A file holds either raw plaintext bytes or a Fernet
envelope; the envelope form records the key it was sealed under, the nonce
freshly drawn at sealing time, and the exact payload. -/
inductive Data where
  | plain : Bytes → Data
  | token : Bytes → Nat → Data → Data
deriving DecidableEq, Repr

/-- Modelled from the spec: `Fernet.generate_key()` of the external
`cryptography` library returns a fresh random key; the model draws it
deterministically from the run's freshness counter. -/
def genKey (n : Nat) : Bytes := [n]

/-- Modelled from the spec: `Fernet(key).encrypt` seals the full plaintext into
a self-contained authenticated envelope embedding a fresh nonce (spec section
4.2: sealing always succeeds and is non-deterministic through the nonce). -/
def fernetEncrypt (key : Bytes) (nonce : Nat) (d : Data) : Data :=
  .token key nonce d

/-- Modelled from the spec: `Fernet(key).decrypt` opens an envelope exactly
when it was sealed under the same key, returning the exact payload, and raises
`InvalidToken` (the spec's AuthenticationError) on any other input — wrong key
or bytes that are not an envelope produced under this key. -/
def fernetDecrypt (key : Bytes) : Data → Option Data
  | .plain _ => none
  | .token k _ d => if k = key then some d else none

/-- The filesystem state: regular files as an association list from path to
contents, directories with their (snapshot) listings of immediate child names,
and the freshness counter feeding key and nonce generation. -/
structure FS where
  files : List (Path × Data)
  dirs : List (Path × List Path)
  ctr : Nat
deriving DecidableEq, Repr

/-- Lookup in the file association list. -/
def findData (p : Path) : List (Path × Data) → Option Data
  | [] => none
  | e :: rest => if e.1 = p then some e.2 else findData p rest

/-- Contents of the regular file at `p`, if any. -/
def lookupFile (fs : FS) (p : Path) : Option Data := findData p fs.files

/-- Model of `os.path.isfile`. -/
def isfile (fs : FS) (p : Path) : Bool := (lookupFile fs p).isSome

/-- Model of `os.path.isdir`. -/
def isdir (fs : FS) (p : Path) : Bool := fs.dirs.any (fun e => e.1 = p)

/-- Model of `os.listdir`: the snapshot listing of immediate child names of a
directory (empty for a non-directory). -/
def listdir (fs : FS) (p : Path) : List Path :=
  match fs.dirs.find? (fun e => e.1 = p) with
  | some e => e.2
  | none => []

/-- Model of `os.path.exists`. -/
def pathExists (fs : FS) (p : Path) : Bool := isfile fs p || isdir fs p

/-- Model of `open(p, 'wb').write(d)`: create or overwrite the regular file at
`p`. -/
def writeFile (fs : FS) (p : Path) (d : Data) : FS :=
  { fs with files := (p, d) :: fs.files.filter (fun e => ¬ e.1 = p) }

/-- Model of `os.remove p`. -/
def removeFile (fs : FS) (p : Path) : FS :=
  { fs with files := fs.files.filter (fun e => ¬ e.1 = p) }

/-- Model of `os.makedirs p` (the parents it would create are never listed or
tested afterwards by the script, so only `p` itself is recorded). -/
def makedirs (fs : FS) (p : Path) : FS :=
  { fs with dirs := (p, []) :: fs.dirs }

/-- Error kinds the Python code can raise in the modelled fragment. -/
inductive Err where
  | fileNotFound : Path → Err
  | isADirectory : Path → Err
  | typeError : Err
  | valueError : Path → Err
  | invalidToken : Path → Err
deriving DecidableEq, Repr

/-- Outcome of a pipeline run: normal completion, or a raised exception
together with the filesystem state at the moment it was raised (Python
exceptions do not roll back earlier writes). -/
inductive Res where
  | ok : FS → Res
  | err : Err → FS → Res
deriving DecidableEq, Repr

/-- Evaluate a Boolean post-condition on the final state of a successful run
(false on an error outcome). -/
def Res.post : Res → (FS → Bool) → Bool
  | .ok fs, f => f fs
  | .err _ _, _ => false

/-- Run one step per listed name, stopping at the first raised exception —
the semantics of the Python `for` loops over `os.listdir`. -/
def runList (step : FS → Path → Res) : FS → List Path → Res
  | fs, [] => .ok fs
  | fs, n :: rest =>
    match step fs n with
    | .ok fs1 => runList step fs1 rest
    | .err e fs1 => .err e fs1

/-- Body shared by both backup branches (source lines 61-68 and 80-87):
`shutil.copy(src, dst)`, read `dst` back, encrypt the bytes, overwrite `dst`
with the envelope.  Copying fails with `IsADirectoryError` when `src` is a
directory and `FileNotFoundError` when it does not exist at all. -/
def copieEtChiffre (cle : Bytes) (fs : FS) (src dst : Path) : Res :=
  match lookupFile fs src with
  | none =>
    if isdir fs src then .err (.isADirectory src) fs
    else .err (.fileNotFound src) fs
  | some d =>
    let fs1 := writeFile fs dst d
    match lookupFile fs1 dst with
    | none => .err (.fileNotFound dst) fs1
    | some d2 => .ok { writeFile fs1 dst (fernetEncrypt cle fs1.ctr d2) with ctr := fs1.ctr + 1 }

/-- One iteration of the backup directory loop (source lines 57-68). -/
def backupStep (cle : Bytes) (source sauv : Path) (fs : FS) (fichier : Path) : Res :=
  copieEtChiffre cle fs (joinP source fichier) (joinP sauv (fichier ++ encSuffix))

/-- Key persistence (source lines 89-98).  With no key path and no explicit
key, the freshly generated key is written to
`os.path.join(os.path.dirname(chemin_sauvegarde), 'cle.key')` — where
`chemin_sauvegarde` is `None` (hence `TypeError`) exactly when the source was
neither a file nor a directory and no destination was given.  With an explicit
key path the key is written there.  With an explicit key and no key path
nothing is written. -/
def persistCle (fs : FS) (cle : Bytes) (sauvOpt kp : Option Path)
    (ks : Option Bytes) : Res :=
  match kp, ks with
  | none, none =>
    match sauvOpt with
    | none => .err .typeError fs
    | some sp => .ok (writeFile fs (joinP (dirname sp) keyName) (.plain cle))
  | some cp, _ => .ok (writeFile fs cp (.plain cle))
  | none, some _ => .ok fs

/-- The path, if any, at which `persistCle` writes the key: a derived view of
source lines 89-98 used to state the key-persistence claims. -/
def persistKeyPath (sauvOpt kp : Option Path) (ks : Option Bytes) : Option Path :=
  match kp, ks with
  | none, none => sauvOpt.map (fun sp => joinP (dirname sp) keyName)
  | some cp, _ => some cp
  | none, some _ => none

/-- The final value of the Python variable `chemin_sauvegarde` after the
branch on the source kind (the directory branch leaves it at the destination
directory, the file branch reassigns it to the destination file, the fallthrough
leaves the argument untouched): a derived view used to state claims. -/
def destFinal (fs : FS) (chemin_source : Path) (chemin_sauvegarde : Option Path) :
    Option Path :=
  if isdir fs chemin_source then
    some (chemin_sauvegarde.getD (chemin_source ++ chiffreSuffix))
  else if isfile fs chemin_source then
    some (match chemin_sauvegarde with
      | some sv => joinP sv (basename chemin_source ++ encSuffix)
      | none => chemin_source ++ encSuffix)
  else chemin_sauvegarde

/-- Embedding of `sauvegarder_et_chiffrer` (source lines 28-100). -/
def sauvegarder_et_chiffrer (fs0 : FS) (chemin_source : Path)
    (chemin_sauvegarde chemin_cle : Option Path) (cle_specifiee : Option Bytes) :
    Res :=
  let cle := match cle_specifiee with
    | some k => k
    | none => genKey fs0.ctr
  let fsK := match cle_specifiee with
    | some _ => fs0
    | none => { fs0 with ctr := fs0.ctr + 1 }
  if isdir fsK chemin_source then
    let sauv := chemin_sauvegarde.getD (chemin_source ++ chiffreSuffix)
    let fs1 := if pathExists fsK sauv then fsK else makedirs fsK sauv
    match runList (backupStep cle chemin_source sauv) fs1 (listdir fs1 chemin_source) with
    | .ok fs2 => persistCle fs2 cle (some sauv) chemin_cle cle_specifiee
    | .err e fs2 => .err e fs2
  else if isfile fsK chemin_source then
    let sauvP := match chemin_sauvegarde with
      | some sv => joinP sv (basename chemin_source ++ encSuffix)
      | none => chemin_source ++ encSuffix
    let fs1 := match chemin_sauvegarde with
      | some sv => if pathExists fsK sv then fsK else makedirs fsK sv
      | none => fsK
    match copieEtChiffre cle fs1 chemin_source sauvP with
    | .ok fs2 => persistCle fs2 cle (some sauvP) chemin_cle cle_specifiee
    | .err e fs2 => .err e fs2
  else
    persistCle fsK cle chemin_sauvegarde chemin_cle cle_specifiee

/-- One iteration of the restore directory loop (source lines 123-140): skip
`cle.key`, read, decrypt (raising `InvalidToken` on failure), write the
plaintext under the name with `.encrypted` removed, delete the ciphertext. -/
def restoreStep (cle : Bytes) (vault : Path) (fs : FS) (fichier : Path) : Res :=
  if fichier = keyName then .ok fs
  else
    let srcP := joinP vault fichier
    match lookupFile fs srcP with
    | none =>
      if isdir fs srcP then .err (.isADirectory srcP) fs
      else .err (.fileNotFound srcP) fs
    | some d =>
      match fernetDecrypt cle d with
      | none => .err (.invalidToken srcP) fs
      | some p =>
        let finalP := joinP vault (replaceAll encSuffix [] fichier)
        .ok (removeFile (writeFile fs finalP p) srcP)

/-- Embedding of `dechiffrer_fichiers` (source lines 103-157). -/
def dechiffrer_fichiers (fs : FS) (chemin_sauvegarde : Path)
    (chemin_cle : Option Path) : Res :=
  let cleP := chemin_cle.getD (joinP (dirname chemin_sauvegarde) keyName)
  match lookupFile fs cleP with
  | none => .err (.fileNotFound cleP) fs
  | some (.token _ _ _) => .err (.valueError cleP) fs
  | some (.plain cle) =>
    if isdir fs chemin_sauvegarde then
      runList (restoreStep cle chemin_sauvegarde) fs (listdir fs chemin_sauvegarde)
    else if isfile fs chemin_sauvegarde then
      match lookupFile fs chemin_sauvegarde with
      | none => .err (.fileNotFound chemin_sauvegarde) fs
      | some d =>
        match fernetDecrypt cle d with
        | none => .err (.invalidToken chemin_sauvegarde) fs
        | some p =>
          let finalP := replaceAll encSuffix [] chemin_sauvegarde
          .ok (removeFile (writeFile fs finalP p) chemin_sauvegarde)
    else .ok fs

/-! ### Basic filesystem lemmas -/

theorem findData_filter_ne (p q : Path) (l : List (Path × Data)) (h : q ≠ p) :
    findData q (l.filter (fun e => !decide (e.1 = p))) = findData q l := by
  induction l with
  | nil => rfl
  | cons e rest ih =>
    by_cases he : e.1 = p
    · have hq : ¬ e.1 = q := fun hq => h (hq ▸ he)
      simp [List.filter_cons, he, findData, hq, ih, h, Ne.symm h]
    · by_cases hq : e.1 = q
      · simp [List.filter_cons, he, findData, hq, h]
      · simp [List.filter_cons, he, findData, hq, ih, h]

theorem findData_filter_self (p : Path) (l : List (Path × Data)) :
    findData p (l.filter (fun e => !decide (e.1 = p))) = none := by
  induction l with
  | nil => rfl
  | cons e rest ih =>
    by_cases he : e.1 = p
    · simpa [List.filter_cons, he] using ih
    · simp [List.filter_cons, he, findData, ih]

@[simp] theorem lookupFile_writeFile_self (fs : FS) (p : Path) (d : Data) :
    lookupFile (writeFile fs p d) p = some d := by
  simp [lookupFile, writeFile, findData]

theorem lookupFile_writeFile_ne (fs : FS) (p q : Path) (d : Data) (h : q ≠ p) :
    lookupFile (writeFile fs p d) q = lookupFile fs q := by
  have h2 : ¬ p = q := fun hp => h hp.symm
  simp [lookupFile, writeFile, findData, h2, findData_filter_ne p q _ h]

@[simp] theorem lookupFile_removeFile_self (fs : FS) (p : Path) :
    lookupFile (removeFile fs p) p = none := by
  simp [lookupFile, removeFile, findData_filter_self]

theorem lookupFile_removeFile_ne (fs : FS) (p q : Path) (h : q ≠ p) :
    lookupFile (removeFile fs p) q = lookupFile fs q := by
  simp [lookupFile, removeFile, findData_filter_ne p q _ h]

@[simp] theorem lookupFile_withCtr (fs : FS) (n : Nat) (p : Path) :
    lookupFile { fs with ctr := n } p = lookupFile fs p := rfl

@[simp] theorem isdir_withCtr (fs : FS) (n : Nat) (p : Path) :
    isdir { fs with ctr := n } p = isdir fs p := rfl

@[simp] theorem listdir_withCtr (fs : FS) (n : Nat) (p : Path) :
    listdir { fs with ctr := n } p = listdir fs p := rfl

@[simp] theorem isdir_writeFile (fs : FS) (p q : Path) (d : Data) :
    isdir (writeFile fs p d) q = isdir fs q := rfl

@[simp] theorem isdir_removeFile (fs : FS) (p q : Path) :
    isdir (removeFile fs p) q = isdir fs q := rfl

@[simp] theorem listdir_writeFile (fs : FS) (p q : Path) (d : Data) :
    listdir (writeFile fs p d) q = listdir fs q := rfl

@[simp] theorem listdir_removeFile (fs : FS) (p q : Path) :
    listdir (removeFile fs p) q = listdir fs q := rfl

theorem listdir_makedirs_ne (fs : FS) (p q : Path) (h : q ≠ p) :
    listdir (makedirs fs p) q = listdir fs q := by
  have h2 : ¬ p = q := fun hp => h hp.symm
  simp [listdir, makedirs, List.find?, h2]

theorem isdir_makedirs_ne (fs : FS) (p q : Path) (h : q ≠ p) :
    isdir (makedirs fs p) q = isdir fs q := by
  have h2 : ¬ p = q := fun hp => h hp.symm
  simp [isdir, makedirs, h2]

@[simp] theorem ctr_writeFile (fs : FS) (p : Path) (d : Data) :
    (writeFile fs p d).ctr = fs.ctr := rfl

@[simp] theorem dirs_writeFile (fs : FS) (p : Path) (d : Data) :
    (writeFile fs p d).dirs = fs.dirs := rfl

@[simp] theorem dirs_removeFile (fs : FS) (p : Path) :
    (removeFile fs p).dirs = fs.dirs := rfl

/-! ### Path algebra lemmas -/

theorem joinP_inj_right (a x y : Path) (h : joinP a x = joinP a y) : x = y := by
  by_cases ha : a = []
  · simpa [joinP, ha] using h
  · rw [joinP, joinP, if_neg ha, if_neg ha] at h
    exact (List.cons_eq_cons.mp (List.append_cancel_left h)).2

theorem joinP_eq_append (a b : Path) : ∃ y, joinP a b = y ++ b := by
  by_cases ha : a = []
  · exact ⟨[], by simp [joinP, ha]⟩
  · exact ⟨a ++ ['/'], by simp [joinP, ha]⟩

theorem append_last_ne (y z : Path) (c1 c2 : Char) (hc : c1 ≠ c2) :
    y ++ [c1] ≠ z ++ [c2] := by
  intro h
  have h2 := congrArg List.getLast? h
  rw [List.getLast?_concat, List.getLast?_concat] at h2
  exact hc (Option.some.inj h2)

theorem encPath_ne_keyName_append (y z : Path) : y ++ encSuffix ≠ z ++ keyName := by
  have he : encSuffix = ".encrypte".toList ++ ['d'] := by decide
  have hk : keyName = "cle.ke".toList ++ ['y'] := by decide
  rw [he, hk, ← List.append_assoc, ← List.append_assoc]
  exact append_last_ne _ _ _ _ (by decide)

/-- The key file path produced by `os.path.join(_, 'cle.key')` can never
coincide with a data path ending in `.encrypted`. -/
theorem keyPath_ne_encPath (x s n : Path) :
    joinP x keyName ≠ joinP s (n ++ encSuffix) := by
  obtain ⟨y, hy⟩ := joinP_eq_append x keyName
  obtain ⟨z, hz⟩ := joinP_eq_append s (n ++ encSuffix)
  rw [hy, hz, ← List.append_assoc]
  exact fun h => encPath_ne_keyName_append (z ++ n) y h.symm

/-- A child of the source directory never coincides with a data path inside
the default `<source>_chiffre` destination. -/
theorem srcChild_ne_defaultDest (src m x : Path) (hs : src ≠ []) :
    joinP src m ≠ joinP (src ++ chiffreSuffix) x := by
  have hch : src ++ chiffreSuffix ≠ [] := by
    simp [chiffreSuffix]
  intro h
  rw [joinP, joinP, if_neg hs, if_neg hch, List.append_assoc] at h
  have h2 := List.append_cancel_left h
  have hc : chiffreSuffix = '_' :: "chiffre".toList := by decide
  rw [hc] at h2
  exact absurd (List.cons_eq_cons.mp h2).1 (by decide)

/-- The default destination directory `<source>_chiffre` is never the source
itself. -/
theorem defaultDest_ne_src (src : Path) : src ++ chiffreSuffix ≠ src := by
  intro h
  have h2 := congrArg List.length h
  rw [List.length_append] at h2
  have hc : chiffreSuffix.length = 8 := by decide
  omega

theorem leadsWith_append_self (a t : Path) : leadsWith a (a ++ t) = true := by
  induction a with
  | nil => rfl
  | cons c rest ih => simp [leadsWith, ih]

theorem leadsWith_iff_exists (a p : Path) :
    leadsWith a p = true ↔ ∃ t, p = a ++ t := by
  induction a generalizing p with
  | nil => simp [leadsWith]
  | cons c rest ih =>
    cases p with
    | nil => simp [leadsWith]
    | cons b bs =>
      simp only [leadsWith, Bool.and_eq_true, beq_iff_eq, ih]
      constructor
      · rintro ⟨rfl, t, rfl⟩
        exact ⟨t, rfl⟩
      · rintro ⟨t, ht⟩
        obtain ⟨rfl, rfl⟩ := List.cons_eq_cons.mp ht
        exact ⟨rfl, t, rfl⟩

theorem isUnder_joinP (d t : Path) (hd : d ≠ []) :
    isUnder d (joinP d t) = true := by
  rw [isUnder, joinP, if_neg hd]
  have : d ++ '/' :: t = (d ++ ['/']) ++ t := by simp
  rw [this]
  exact leadsWith_append_self _ _

theorem isUnder_exists (d p : Path) (hd : d ≠ []) (h : isUnder d p = true) :
    ∃ t, p = joinP d t := by
  obtain ⟨t, ht⟩ := (leadsWith_iff_exists _ _).mp h
  refine ⟨t, ?_⟩
  rw [joinP, if_neg hd, ht]
  simp

/-! ### Loop lemmas -/

theorem copieEtChiffre_ok (cle : Bytes) (fs : FS) (src dst : Path) (d : Data)
    (h : lookupFile fs src = some d) :
    copieEtChiffre cle fs src dst =
      .ok { writeFile (writeFile fs dst d) dst (.token cle fs.ctr d)
              with ctr := fs.ctr + 1 } := by
  simp [copieEtChiffre, h, fernetEncrypt]

/-- Characterization of the backup directory loop (source lines 57-68) on a
state where every listed child exists as a file and no destination path
collides with a source path: the loop succeeds, touches no directory, writes
exactly the `<name>.encrypted` destinations (sealing the corresponding source
contents), and leaves every other file unchanged. -/
theorem backupLoop_ok (cle : Bytes) (source sauv : Path) (fs : FS)
    (names : List Path)
    (hsrc : ∀ n ∈ names, (lookupFile fs (joinP source n)).isSome = true)
    (hdisj : ∀ n ∈ names, ∀ m ∈ names,
      joinP sauv (m ++ encSuffix) ≠ joinP source n) :
    ∃ fs2, runList (backupStep cle source sauv) fs names = .ok fs2 ∧
      fs2.dirs = fs.dirs ∧
      (∀ p, (∀ n ∈ names, p ≠ joinP sauv (n ++ encSuffix)) →
        lookupFile fs2 p = lookupFile fs p) ∧
      (∀ n ∈ names, ∃ nn d, lookupFile fs (joinP source n) = some d ∧
        lookupFile fs2 (joinP sauv (n ++ encSuffix)) = some (.token cle nn d)) := by
  induction names generalizing fs with
  | nil => exact ⟨fs, rfl, rfl, fun p _ => rfl, fun n hn => absurd hn (by simp)⟩
  | cons n rest ih =>
    obtain ⟨d, hd⟩ := Option.isSome_iff_exists.mp (hsrc n (by simp))
    have hstep := copieEtChiffre_ok cle fs (joinP source n)
      (joinP sauv (n ++ encSuffix)) d hd
    set dst := joinP sauv (n ++ encSuffix) with hdst
    set fsA : FS := { writeFile (writeFile fs dst d) dst (.token cle fs.ctr d)
      with ctr := fs.ctr + 1 }
    have hA_ne : ∀ q, q ≠ dst → lookupFile fsA q = lookupFile fs q := by
      intro q hq
      show lookupFile (writeFile (writeFile fs dst d) dst _) q = _
      rw [lookupFile_writeFile_ne _ _ _ _ hq, lookupFile_writeFile_ne _ _ _ _ hq]
    have hA_dst : lookupFile fsA dst = some (.token cle fs.ctr d) := by
      show lookupFile (writeFile (writeFile fs dst d) dst _) dst = _
      rw [lookupFile_writeFile_self]
    have hsrc' : ∀ m ∈ rest, (lookupFile fsA (joinP source m)).isSome = true := by
      intro m hm
      rw [hA_ne _ (fun h => hdisj m (by simp [hm]) n (by simp) h.symm)]
      exact hsrc m (by simp [hm])
    have hdisj' : ∀ m ∈ rest, ∀ k ∈ rest,
        joinP sauv (k ++ encSuffix) ≠ joinP source m :=
      fun m hm k hk => hdisj m (by simp [hm]) k (by simp [hk])
    obtain ⟨fs2, hrun, hdirs, hpres, hcont⟩ := ih fsA hsrc' hdisj'
    refine ⟨fs2, ?_, ?_, ?_, ?_⟩
    · simp only [runList, backupStep, hstep]
      exact hrun
    · rw [hdirs]; rfl
    · intro p hp
      rw [hpres p (fun m hm => hp m (by simp [hm])),
        hA_ne p (hp n (by simp))]
    · intro m hm
      rcases List.mem_cons.mp hm with rfl | hm'
      · by_cases hin : ∀ k ∈ rest, dst ≠ joinP sauv (k ++ encSuffix)
        · refine ⟨fs.ctr, d, hd, ?_⟩
          rw [hpres dst hin, hA_dst]
        · push_neg at hin
          obtain ⟨k, hk, hkeq⟩ := hin
          have hkm : k = m := by
            have := joinP_inj_right sauv _ _ hkeq.symm
            exact List.append_cancel_right this
          subst hkm
          obtain ⟨nn, d', hd', hw⟩ := hcont k hk
          have hd'' : d' = d := by
            rw [hA_ne _ (fun h =>
              hdisj k (by simp) k (by simp [hk]) h.symm), hd] at hd'
            exact (Option.some.inj hd').symm
          subst hd''
          exact ⟨nn, d', hd, by rw [← hkeq] at hw; exact hw⟩
      · obtain ⟨nn, d', hd', hw⟩ := hcont m hm'
        refine ⟨nn, d', ?_, hw⟩
        rw [hA_ne _ (fun h =>
          hdisj m (by simp [hm']) n (by simp) h.symm)] at hd'
        exact hd'

theorem runList_append (step : FS → Path → Res) (fs : FS) (a b : List Path) :
    runList step fs (a ++ b) =
      match runList step fs a with
      | .ok fs1 => runList step fs1 b
      | .err e fs1 => .err e fs1 := by
  induction a generalizing fs with
  | nil => rfl
  | cons n rest ih =>
    simp only [List.cons_append, runList]
    cases step fs n with
    | ok fs1 => exact ih fs1
    | err e fs1 => rfl

theorem keyPath_ne_encAppend (x y : Path) : joinP x keyName ≠ y ++ encSuffix := by
  obtain ⟨z, hz⟩ := joinP_eq_append x keyName
  rw [hz]
  exact fun h => encPath_ne_keyName_append y z h.symm

theorem encAppend_ne_self (src : Path) : src ++ encSuffix ≠ src := by
  intro h
  have h2 := congrArg List.length h
  rw [List.length_append] at h2
  have hc : encSuffix.length = 10 := by decide
  omega

@[simp] theorem pathExists_withCtr (fs : FS) (n : Nat) (p : Path) :
    pathExists { fs with ctr := n } p = pathExists fs p := rfl

/-- The state after the key-resolution step of the backup pipeline (source
lines 39-43): generating a fresh key consumes the freshness counter, an
explicit key leaves the state untouched. -/
def fsAfterKeygen (fs : FS) (ks : Option Bytes) : FS :=
  match ks with
  | some _ => fs
  | none => { fs with ctr := fs.ctr + 1 }

@[simp] theorem lookupFile_fsAfterKeygen (fs : FS) (ks : Option Bytes) (p : Path) :
    lookupFile (fsAfterKeygen fs ks) p = lookupFile fs p := by
  cases ks <;> rfl

@[simp] theorem isdir_fsAfterKeygen (fs : FS) (ks : Option Bytes) (p : Path) :
    isdir (fsAfterKeygen fs ks) p = isdir fs p := by
  cases ks <;> rfl

@[simp] theorem listdir_fsAfterKeygen (fs : FS) (ks : Option Bytes) (p : Path) :
    listdir (fsAfterKeygen fs ks) p = listdir fs p := by
  cases ks <;> rfl

@[simp] theorem pathExists_fsAfterKeygen (fs : FS) (ks : Option Bytes) (p : Path) :
    pathExists (fsAfterKeygen fs ks) p = pathExists fs p := by
  cases ks <;> rfl

@[simp] theorem lookupFile_makedirs (fs : FS) (p q : Path) :
    lookupFile (makedirs fs p) q = lookupFile fs q := rfl

theorem endsWith_encAppend (y : Path) :
    endsWith encSuffix (y ++ encSuffix) = true := by
  rw [endsWith, List.reverse_append]
  exact leadsWith_append_self _ _

theorem endsWith_enc_joinP (s n : Path) :
    endsWith encSuffix (joinP s (n ++ encSuffix)) = true := by
  obtain ⟨y, hy⟩ := joinP_eq_append s (n ++ encSuffix)
  rw [hy, ← List.append_assoc]
  exact endsWith_encAppend _

theorem copieEtChiffre_ok_inv (cle : Bytes) (fs fsA : FS) (src dst : Path)
    (h : copieEtChiffre cle fs src dst = .ok fsA) :
    ∃ d, lookupFile fs src = some d ∧
      fsA = { writeFile (writeFile fs dst d) dst (.token cle fs.ctr d)
                with ctr := fs.ctr + 1 } := by
  rw [copieEtChiffre] at h
  cases hl : lookupFile fs src with
  | none =>
    rw [hl] at h
    by_cases hd : isdir fs src = true
    · rw [if_pos hd] at h; exact absurd h (by simp)
    · rw [if_neg hd] at h; exact absurd h (by simp)
  | some d =>
    rw [hl] at h
    simp only [lookupFile_writeFile_self, fernetEncrypt, Res.ok.injEq] at h
    exact ⟨d, rfl, h.symm⟩

/-- A successful backup loop run only creates files whose paths carry the
`.encrypted` suffix inside the destination; every other file of the final
state was already present. -/
theorem backupLoop_new_files (cle : Bytes) (source sauv : Path)
    (fs fs2 : FS) (names : List Path)
    (h : runList (backupStep cle source sauv) fs names = .ok fs2) :
    ∀ p, (lookupFile fs2 p).isSome = true →
      (lookupFile fs p).isSome = true ∨ ∃ n ∈ names, p = joinP sauv (n ++ encSuffix) := by
  induction names generalizing fs with
  | nil =>
    cases h
    exact fun p hp => Or.inl hp
  | cons n rest ih =>
    rw [runList] at h
    cases hstep : backupStep cle source sauv fs n with
    | err e fsE => rw [hstep] at h; exact absurd h (by simp)
    | ok fsA =>
      rw [hstep] at h
      intro p hp
      rcases ih fsA h p hp with hA | ⟨m, hm, rfl⟩
      · obtain ⟨d, _, rfl⟩ := copieEtChiffre_ok_inv cle fs fsA
          (joinP source n) (joinP sauv (n ++ encSuffix)) hstep
        by_cases hpd : p = joinP sauv (n ++ encSuffix)
        · exact Or.inr ⟨n, by simp, hpd⟩
        · left
          rw [show lookupFile
              { writeFile (writeFile fs (joinP sauv (n ++ encSuffix)) d)
                  (joinP sauv (n ++ encSuffix)) (.token cle fs.ctr d)
                with ctr := fs.ctr + 1 } p =
              lookupFile fs p from by
            rw [lookupFile_withCtr, lookupFile_writeFile_ne _ _ _ _ hpd,
              lookupFile_writeFile_ne _ _ _ _ hpd]] at hA
          exact hA
      · exact Or.inr ⟨m, by simp [hm], rfl⟩

/-- Inversion of a successful backup run: the final state is obtained by the
key-persistence step `persistCle` applied, with the run's key, to a state
whose only new files (relative to the initial state) carry the `.encrypted`
suffix, and to the final destination path `destFinal`. -/
theorem sauvegarder_ok_inv (fs : FS) (src : Path) (dstOpt kp : Option Path)
    (ks : Option Bytes) (fs' : FS)
    (h : sauvegarder_et_chiffrer fs src dstOpt kp ks = .ok fs') :
    ∃ fsB : FS,
      (∀ p, (lookupFile fsB p).isSome = true →
        (lookupFile fs p).isSome = true ∨ endsWith encSuffix p = true) ∧
      persistCle fsB (ks.getD (genKey fs.ctr)) (destFinal fs src dstOpt) kp ks =
        .ok fs' := by
  rw [sauvegarder_et_chiffrer.eq_def] at h
  by_cases hdir : isdir fs src = true
  · rw [destFinal.eq_def, if_pos hdir]
    cases ks with
    | some k =>
      simp only [isdir_withCtr, hdir, if_true] at h
      cases hrun : runList (backupStep k src (dstOpt.getD (src ++ chiffreSuffix)))
          (if pathExists fs (dstOpt.getD (src ++ chiffreSuffix)) then fs
           else makedirs fs (dstOpt.getD (src ++ chiffreSuffix)))
          (listdir (if pathExists fs (dstOpt.getD (src ++ chiffreSuffix)) then fs
           else makedirs fs (dstOpt.getD (src ++ chiffreSuffix))) src) with
      | err e fsE =>
        rw [hrun] at h; exact absurd h (by simp)
      | ok fsB =>
        rw [hrun] at h
        refine ⟨fsB, ?_, h⟩
        intro p hp
        rcases backupLoop_new_files _ _ _ _ _ _ hrun p hp with hA | ⟨n, _, rfl⟩
        · left
          by_cases he : pathExists fs (dstOpt.getD (src ++ chiffreSuffix)) = true
          · rw [if_pos he] at hA; exact hA
          · rw [if_neg he] at hA; exact hA
        · exact Or.inr (endsWith_enc_joinP _ _)
    | none =>
      simp only [isdir_withCtr, hdir, if_true, pathExists_withCtr,
        listdir_withCtr] at h
      have hld : listdir (if pathExists fs (dstOpt.getD (src ++ chiffreSuffix)) then
          { fs with ctr := fs.ctr + 1 }
         else makedirs { fs with ctr := fs.ctr + 1 }
          (dstOpt.getD (src ++ chiffreSuffix))) src = listdir fs src := by
        by_cases he : pathExists fs (dstOpt.getD (src ++ chiffreSuffix)) = true
        · rw [if_pos he]; rfl
        · rw [if_neg he]
          rw [listdir_makedirs_ne _ _ _
            (fun hq => he (by rw [← hq, pathExists, hdir, Bool.or_true]))]
          rfl
      rw [hld] at h
      cases hrun : runList (backupStep (genKey fs.ctr) src
          (dstOpt.getD (src ++ chiffreSuffix)))
          (if pathExists fs (dstOpt.getD (src ++ chiffreSuffix)) then
            { fs with ctr := fs.ctr + 1 }
           else makedirs { fs with ctr := fs.ctr + 1 }
            (dstOpt.getD (src ++ chiffreSuffix)))
          (listdir fs src) with
      | err e fsE =>
        rw [hrun] at h; exact absurd h (by simp)
      | ok fsB =>
        rw [hrun] at h
        refine ⟨fsB, ?_, h⟩
        intro p hp
        rcases backupLoop_new_files _ _ _ _ _ _ hrun p hp with hA | ⟨n, _, rfl⟩
        · left
          by_cases he : pathExists fs (dstOpt.getD (src ++ chiffreSuffix)) = true
          · rw [if_pos he] at hA; exact hA
          · rw [if_neg he] at hA; exact hA
        · exact Or.inr (endsWith_enc_joinP _ _)
  · by_cases hfile : isfile fs src = true
    · rw [destFinal.eq_def, if_neg hdir, if_pos hfile]
      obtain ⟨d, hd⟩ := Option.isSome_iff_exists.mp hfile
      have hcont : ∀ (fsPre : FS) (cle : Bytes) (sauvP : Path),
          (∀ q, lookupFile fsPre q = lookupFile fs q) →
          (∃ y, sauvP = y ++ encSuffix) →
          (match copieEtChiffre cle fsPre src sauvP with
           | Res.ok fs2 => persistCle fs2 cle (some sauvP) kp ks
           | Res.err e fs2 => Res.err e fs2) = .ok fs' →
          ∃ fsB : FS,
            (∀ p, (lookupFile fsB p).isSome = true →
              (lookupFile fs p).isSome = true ∨ endsWith encSuffix p = true) ∧
            persistCle fsB cle (some sauvP) kp ks = .ok fs' := by
        rintro fsPre cle sauvP hPreq ⟨y, rfl⟩ hm
        cases hc : copieEtChiffre cle fsPre src (y ++ encSuffix) with
        | err e fsE => rw [hc] at hm; exact absurd hm (by simp)
        | ok fsB =>
          rw [hc] at hm
          obtain ⟨d2, _, rfl⟩ := copieEtChiffre_ok_inv cle fsPre fsB src _ hc
          refine ⟨_, ?_, hm⟩
          intro p hp
          by_cases hpd : p = y ++ encSuffix
          · exact Or.inr (hpd ▸ endsWith_encAppend y)
          · left
            rw [lookupFile_withCtr, lookupFile_writeFile_ne _ _ _ _ hpd,
              lookupFile_writeFile_ne _ _ _ _ hpd, hPreq] at hp
            exact hp
      have hjoin : ∀ sv : Path, ∃ y,
          joinP sv (basename src ++ encSuffix) = y ++ encSuffix := by
        intro sv
        obtain ⟨y0, hy⟩ := joinP_eq_append sv (basename src ++ encSuffix)
        exact ⟨y0 ++ basename src, by rw [hy, List.append_assoc]⟩
      cases ks with
      | some k =>
        simp only [hdir, Bool.false_eq_true, if_false, isfile, hd,
          Option.isSome_some, if_true, Option.getD_some] at h ⊢
        cases dstOpt with
        | some sv =>
          dsimp only [] at h
          refine hcont _ k _ ?_ (hjoin sv) h
          intro q
          by_cases he : pathExists fs sv = true
          · rw [if_pos he]
          · rw [if_neg he, lookupFile_makedirs]
        | none =>
          dsimp only [] at h
          exact hcont fs k (src ++ encSuffix) (fun q => rfl) ⟨src, rfl⟩ h
      | none =>
        simp only [isdir_withCtr, hdir, Bool.false_eq_true, if_false, isfile,
          lookupFile_withCtr, hd, Option.isSome_some, if_true,
          Option.getD_none, pathExists_withCtr] at h ⊢
        cases dstOpt with
        | some sv =>
          dsimp only [] at h
          refine hcont _ (genKey fs.ctr) _ ?_ (hjoin sv) h
          intro q
          by_cases he : pathExists fs sv = true
          · rw [if_pos he, lookupFile_withCtr]
          · rw [if_neg he, lookupFile_makedirs, lookupFile_withCtr]
        | none =>
          dsimp only [] at h
          exact hcont { fs with ctr := fs.ctr + 1 } (genKey fs.ctr)
            (src ++ encSuffix) (fun q => rfl) ⟨src, rfl⟩ h
    · rw [destFinal.eq_def, if_neg hdir, if_neg hfile]
      cases ks with
      | some k =>
        simp only [hdir, Bool.false_eq_true, if_false, hfile,
          Option.getD_some] at h ⊢
        exact ⟨fs, fun p hp => Or.inl hp, h⟩
      | none =>
        have hfile2 : ¬ isfile { fs with ctr := fs.ctr + 1 } src = true := hfile
        simp only [isdir_withCtr, hdir, Bool.false_eq_true, if_false,
          hfile2, Option.getD_none] at h ⊢
        exact ⟨{ fs with ctr := fs.ctr + 1 }, fun p hp => Or.inl hp, h⟩

/-! ### Claims -/

/-- C2: invoking backup with a source path that exists neither as a file nor
as a directory — here source `missing` over an empty filesystem, with
destination `d` — does not fail with a NotFoundError: the run completes
normally (`Res.ok`) and even performs a filesystem write, creating the key
file `cle.key` at `join(dirname('d'), 'cle.key')`.  This refutes the claim
that such an invocation fails with NotFoundError and performs no writes. -/
theorem C2_missing_source_no_notfound_and_writes_key :
    Res.post
      (sauvegarder_et_chiffrer { files := [], dirs := [], ctr := 0 }
        "missing".toList (some "d".toList) none none)
      (fun fs2 => isfile fs2 keyName) = true := by
  decide

/-- C4: a restore-pipeline entry can end with neither the ciphertext nor the
plaintext present.  Vault directory `v` holds a single validly sealed entry
named `a.txt` (no `.encrypted` substring), and `cle.key` holds the matching
key; opening succeeds, the plaintext is written to the same path
`v/a.txt` (since removing `.encrypted` leaves the name unchanged), and the
subsequent `os.remove` of the ciphertext path deletes that very file.  The
run succeeds and `v/a.txt` is gone in the final state. -/
theorem C4_entry_can_end_with_neither_form :
    Res.post
      (dechiffrer_fichiers
        { files := [("v/a.txt".toList, .token [0] 0 (.plain [5])),
                    ("cle.key".toList, .plain [0])],
          dirs := [("v".toList, ["a.txt".toList])], ctr := 0 }
        "v".toList none)
      (fun fs2 => !(isfile fs2 "v/a.txt".toList)) = true := by
  decide

/-- C1: for every plaintext byte sequence `P` held in a source file, backing
the file up (sealing it under the freshly generated key) and then restoring
the resulting `.encrypted` artifact under the same key yields exactly `P`
at the original path.  The side conditions say the source is a genuine file,
neither path is shadowed by a directory, and the source name itself does not
contain the `.encrypted` substring (so the restore's name stripping inverts
the backup's naming). -/
theorem C1_seal_then_open_roundtrip (fs : FS) (src : Path) (P : Bytes)
    (hfile : lookupFile fs src = some (.plain P))
    (hdir : isdir fs src = false)
    (hdirE : isdir fs (src ++ encSuffix) = false)
    (hstrip : replaceAll encSuffix [] (src ++ encSuffix) = src) :
    ∃ fs2 fs3,
      sauvegarder_et_chiffrer fs src none none none = .ok fs2 ∧
      dechiffrer_fichiers fs2 (src ++ encSuffix) none = .ok fs3 ∧
      lookupFile fs3 src = some (.plain P) := by
  have hne1 : joinP (dirname (src ++ encSuffix)) keyName ≠ src ++ encSuffix :=
    keyPath_ne_encAppend _ _
  have hne2 : src ≠ src ++ encSuffix := fun h => encAppend_ne_self src h.symm
  have hfileK : lookupFile { fs with ctr := fs.ctr + 1 } src = some (.plain P) := hfile
  refine ⟨writeFile
      { writeFile (writeFile { fs with ctr := fs.ctr + 1 } (src ++ encSuffix) (.plain P))
          (src ++ encSuffix) (.token (genKey fs.ctr) (fs.ctr + 1) (.plain P))
        with ctr := fs.ctr + 2 }
      (joinP (dirname (src ++ encSuffix)) keyName) (.plain (genKey fs.ctr)),
    ?_, ?_, ?_, ?_⟩
  · exact removeFile
      (writeFile
        (writeFile
          { writeFile (writeFile { fs with ctr := fs.ctr + 1 } (src ++ encSuffix) (.plain P))
              (src ++ encSuffix) (.token (genKey fs.ctr) (fs.ctr + 1) (.plain P))
            with ctr := fs.ctr + 2 }
          (joinP (dirname (src ++ encSuffix)) keyName) (.plain (genKey fs.ctr)))
        src (.plain P))
      (src ++ encSuffix)
  · have hcopie := copieEtChiffre_ok (genKey fs.ctr) { fs with ctr := fs.ctr + 1 }
      src (src ++ encSuffix) (.plain P) hfileK
    simp only [sauvegarder_et_chiffrer, isdir_withCtr, hdir, Bool.false_eq_true,
      if_false, isfile, hfileK, Option.isSome_some, if_true, hcopie, persistCle]
  · simp only [dechiffrer_fichiers, Option.getD]
    rw [lookupFile_writeFile_self]
    have hdirs2 : isdir
        (writeFile
          { writeFile (writeFile { fs with ctr := fs.ctr + 1 } (src ++ encSuffix) (.plain P))
              (src ++ encSuffix) (.token (genKey fs.ctr) (fs.ctr + 1) (.plain P))
            with ctr := fs.ctr + 2 }
          (joinP (dirname (src ++ encSuffix)) keyName) (.plain (genKey fs.ctr)))
        (src ++ encSuffix) = false := hdirE
    rw [hdirs2]
    have hlook2 : lookupFile
        (writeFile
          { writeFile (writeFile { fs with ctr := fs.ctr + 1 } (src ++ encSuffix) (.plain P))
              (src ++ encSuffix) (.token (genKey fs.ctr) (fs.ctr + 1) (.plain P))
            with ctr := fs.ctr + 2 }
          (joinP (dirname (src ++ encSuffix)) keyName) (.plain (genKey fs.ctr)))
        (src ++ encSuffix) = some (.token (genKey fs.ctr) (fs.ctr + 1) (.plain P)) := by
      rw [lookupFile_writeFile_ne _ _ _ _ (Ne.symm hne1)]
      exact lookupFile_writeFile_self _ _ _
    simp only [Bool.false_eq_true, if_false, isfile, hlook2, Option.isSome_some,
      if_true, fernetDecrypt, if_pos rfl, hstrip]
  · rw [lookupFile_removeFile_ne _ _ _ hne2, lookupFile_writeFile_self]

theorem replaceAllAux_of_not_occurs (pat rep : Path) (fuel : Nat) (s : Path)
    (h : occursIn pat s = false) : replaceAllAux pat rep fuel s = s := by
  induction fuel generalizing s with
  | zero => cases s <;> rfl
  | succ fuel ih =>
    cases s with
    | nil => rfl
    | cons c rest =>
      rw [occursIn, Bool.or_eq_false_iff] at h
      rw [replaceAllAux, if_neg (fun hcond => by simp [hcond.2] at h), ih rest h.2]

/-- The model of `str.replace` leaves a string without any occurrence of the
pattern unchanged. -/
theorem replaceAll_of_not_occurs (pat rep s : Path)
    (h : occursIn pat s = false) : replaceAll pat rep s = s :=
  replaceAllAux_of_not_occurs pat rep s.length s h

/-- C5: authenticated-decryption failure is the sole and faithful integrity
signal.  First conjunct: if the entry `bad` of the vault listing holds
contents that are not an envelope sealed under the loaded key (wrong key or
arbitrary tampered bytes), the restore pipeline stops exactly there, raising
`InvalidToken` (the AuthenticationError) which surfaces unmodified as the
run's outcome, with the filesystem exactly as the already-processed prefix
left it — the remaining batch is never touched.  Second conjunct: opening
never silently returns wrong plaintext — a successful `decrypt` under key `K`
forces the input to be an envelope sealed under `K` with exactly that
payload. -/
theorem C5_auth_error_propagates_and_aborts
    (fs fs1 : FS) (vault : Path) (cle : Bytes) (kpArg : Option Path)
    (names1 names2 : List Path) (bad : Path) (c : Data)
    (hkey : lookupFile fs (kpArg.getD (joinP (dirname vault) keyName)) =
      some (.plain cle))
    (hdir : isdir fs vault = true)
    (hlist : listdir fs vault = names1 ++ bad :: names2)
    (hpre : runList (restoreStep cle vault) fs names1 = .ok fs1)
    (hbadname : bad ≠ keyName)
    (hbadc : lookupFile fs1 (joinP vault bad) = some c)
    (htamper : ∀ nn p, c ≠ .token cle nn p) :
    dechiffrer_fichiers fs vault kpArg =
      .err (.invalidToken (joinP vault bad)) fs1 ∧
    (∀ (K : Bytes) (d p : Data), fernetDecrypt K d = some p →
      ∃ nn, d = .token K nn p) := by
  constructor
  · have hdec : fernetDecrypt cle c = none := by
      cases c with
      | plain b => rfl
      | token k nn p =>
        by_cases hk : k = cle
        · exact absurd (by rw [hk]) (htamper nn p)
        · simp [fernetDecrypt, hk]
    simp only [dechiffrer_fichiers, hkey, hdir, if_true, hlist,
      runList_append, hpre, runList, restoreStep, if_neg hbadname,
      hbadc, hdec]
  · intro K d p h
    cases d with
    | plain b => simp [fernetDecrypt] at h
    | token k nn q =>
      by_cases hk : k = K
      · subst hk
        simp only [fernetDecrypt, if_pos rfl, if_true, Option.some.injEq] at h
        exact ⟨nn, by rw [h]⟩
      · simp [fernetDecrypt, hk] at h

/-- C8: during restore traversal of a directory vault, children named exactly
`cle.key` are excluded from being treated as data entries.  First conjunct:
the restore loop behaves exactly as if every `cle.key` entry were absent from
the listing — such an entry is never read, decrypted, renamed or removed.
Second conjunct: the restore pipeline on a directory vault is exactly that
loop over the listing with `cle.key` entries filtered away. -/
theorem C8_cle_key_entries_excluded :
    (∀ (cle : Bytes) (vault : Path) (fs : FS) (names : List Path),
      runList (restoreStep cle vault) fs names =
        runList (restoreStep cle vault) fs
          (names.filter (fun n => !decide (n = keyName)))) ∧
    (∀ (fs : FS) (vault : Path) (kpArg : Option Path) (cle : Bytes),
      lookupFile fs (kpArg.getD (joinP (dirname vault) keyName)) =
        some (.plain cle) →
      isdir fs vault = true →
      dechiffrer_fichiers fs vault kpArg =
        runList (restoreStep cle vault) fs
          ((listdir fs vault).filter (fun n => !decide (n = keyName)))) := by
  have h1 : ∀ (cle : Bytes) (vault : Path) (fs : FS) (names : List Path),
      runList (restoreStep cle vault) fs names =
        runList (restoreStep cle vault) fs
          (names.filter (fun n => !decide (n = keyName))) := by
    intro cle vault fs names
    induction names generalizing fs with
    | nil => rfl
    | cons n rest ih =>
      by_cases hn : n = keyName
      · have hskip : restoreStep cle vault fs n = .ok fs := by
          rw [restoreStep, if_pos hn]
        rw [runList, hskip, List.filter_cons, if_neg (by simp [hn])]
        exact ih fs
      · rw [runList, List.filter_cons, if_pos (by simp [hn]), runList]
        cases restoreStep cle vault fs n with
        | ok fs2 => exact ih fs2
        | err e fs2 => rfl
  refine ⟨h1, ?_⟩
  intro fs vault kpArg cle hkey hdir
  simp only [dechiffrer_fichiers, hkey, hdir, if_true]
  exact h1 cle vault fs (listdir fs vault)

/-- C9: the restore pipeline's output filename is obtained by removing the
substring `.encrypted` everywhere it occurs in the entry name — literal
substring removal, not a trailing-suffix check.  First conjunct: a processed
directory entry is written under exactly `replace(name, '.encrypted', '')`.
Second conjunct: a name containing the substring mid-name is altered at every
occurrence.  Third conjunct: a name without the substring is left unchanged. -/
theorem C9_output_name_is_substring_removal :
    (∀ (cle : Bytes) (vault : Path) (fs : FS) (fichier : Path) (d p : Data),
      fichier ≠ keyName →
      lookupFile fs (joinP vault fichier) = some d →
      fernetDecrypt cle d = some p →
      restoreStep cle vault fs fichier =
        .ok (removeFile
          (writeFile fs (joinP vault (replaceAll encSuffix [] fichier)) p)
          (joinP vault fichier))) ∧
    replaceAll encSuffix [] "a.encryptedb.txt.encrypted".toList =
      "ab.txt".toList ∧
    (∀ name : Path, occursIn encSuffix name = false →
      replaceAll encSuffix [] name = name) := by
  refine ⟨?_, by decide, fun name h => replaceAll_of_not_occurs _ _ _ h⟩
  intro cle vault fs fichier d p hname hlook hdec
  rw [restoreStep, if_neg hname]
  simp only [hlook, hdec]

/-- Witness for C1: the round-trip theorem instantiated on a one-file
filesystem holding `a.txt` with contents `[104]`. -/
theorem C1_seal_then_open_roundtrip_witness :
    ∃ fs2 fs3,
      sauvegarder_et_chiffrer
        { files := [("a.txt".toList, .plain [104])], dirs := [], ctr := 0 }
        "a.txt".toList none none none = .ok fs2 ∧
      dechiffrer_fichiers fs2 ("a.txt".toList ++ encSuffix) none = .ok fs3 ∧
      lookupFile fs3 "a.txt".toList = some (.plain [104]) :=
  C1_seal_then_open_roundtrip
    { files := [("a.txt".toList, .plain [104])], dirs := [], ctr := 0 }
    "a.txt".toList [104] (by decide) (by decide) (by decide) (by decide)

/-- Witness for C5: a vault whose single entry holds plain bytes (not an
envelope under the loaded key) makes the restore run fail with
`InvalidToken` on that entry, leaving the state untouched. -/
theorem C5_auth_error_witness :
    dechiffrer_fichiers
      { files := [("cle.key".toList, .plain [0]),
                  ("v/x.encrypted".toList, .plain [9])],
        dirs := [("v".toList, ["x.encrypted".toList])], ctr := 0 }
      "v".toList none =
      .err (.invalidToken (joinP "v".toList "x.encrypted".toList))
        { files := [("cle.key".toList, .plain [0]),
                    ("v/x.encrypted".toList, .plain [9])],
          dirs := [("v".toList, ["x.encrypted".toList])], ctr := 0 } ∧
    (∀ (K : Bytes) (d p : Data), fernetDecrypt K d = some p →
      ∃ nn, d = .token K nn p) :=
  C5_auth_error_propagates_and_aborts _ _ "v".toList [0] none [] []
    "x.encrypted".toList (.plain [9]) (by decide) (by decide) (by decide) rfl
    (by decide) (by decide) (fun nn p h => Data.noConfusion h)

/-- Witness for C8: a vault directory whose listing contains `cle.key`
restores exactly as if the `cle.key` entry were filtered out. -/
theorem C8_cle_key_entries_excluded_witness :
    dechiffrer_fichiers
      { files := [("cle.key".toList, .plain [3])],
        dirs := [("w".toList, ["cle.key".toList])], ctr := 0 }
      "w".toList none =
      runList (restoreStep [3] "w".toList)
        { files := [("cle.key".toList, .plain [3])],
          dirs := [("w".toList, ["cle.key".toList])], ctr := 0 }
        ((listdir
          { files := [("cle.key".toList, .plain [3])],
            dirs := [("w".toList, ["cle.key".toList])], ctr := 0 }
          "w".toList).filter (fun n => !decide (n = keyName))) :=
  C8_cle_key_entries_excluded.2
    { files := [("cle.key".toList, .plain [3])],
      dirs := [("w".toList, ["cle.key".toList])], ctr := 0 }
    "w".toList none [3] (by decide) (by decide)

/-- Witness for C9: a directory entry `a.txt.encrypted` is written back under
`replace(name, '.encrypted', '')`, and a name without the substring is left
unchanged. -/
theorem C9_output_name_witness :
    restoreStep [0] "v".toList
      { files := [("v/a.txt.encrypted".toList, .token [0] 0 (.plain [5]))],
        dirs := [], ctr := 0 } "a.txt.encrypted".toList =
      .ok (removeFile
        (writeFile
          { files := [("v/a.txt.encrypted".toList, .token [0] 0 (.plain [5]))],
            dirs := [], ctr := 0 }
          (joinP "v".toList (replaceAll encSuffix [] "a.txt.encrypted".toList))
          (.plain [5]))
        (joinP "v".toList "a.txt.encrypted".toList)) ∧
    replaceAll encSuffix [] "nope.txt".toList = "nope.txt".toList :=
  ⟨C9_output_name_is_substring_removal.1 [0] "v".toList
      { files := [("v/a.txt.encrypted".toList, .token [0] 0 (.plain [5]))],
        dirs := [], ctr := 0 }
      "a.txt.encrypted".toList (.token [0] 0 (.plain [5])) (.plain [5])
      (by decide) (by decide) (by decide),
   C9_output_name_is_substring_removal.2.2 "nope.txt".toList (by decide)⟩

/-- C10: backing up a directory one of whose immediate children (`bad`, at
any position in the listing) is itself a directory makes the copy step
(`shutil.copy`, which opens the child for reading) raise `IsADirectoryError`,
aborting the run right there: the outcome is that error with the filesystem
exactly as the already-processed prefix of the listing left it — the
subdirectory is neither skipped nor recursed into, and the remaining entries
are never processed.  Hypotheses: the source is a directory, the destination
(explicit or the `<source>_chiffre` default) already exists, the entries
before `bad` process successfully, and `bad` resolves to a directory, not a
file. -/
theorem C10_subdirectory_child_aborts_backup
    (fs fs1 : FS) (src : Path) (dstOpt kp : Option Path) (ks : Option Bytes)
    (names1 names2 : List Path) (bad : Path)
    (hdir : isdir fs src = true)
    (hex : pathExists fs (dstOpt.getD (src ++ chiffreSuffix)) = true)
    (hlist : listdir fs src = names1 ++ bad :: names2)
    (hpre : runList (backupStep (ks.getD (genKey fs.ctr)) src
        (dstOpt.getD (src ++ chiffreSuffix))) (fsAfterKeygen fs ks) names1 =
        .ok fs1)
    (hbadf : lookupFile fs1 (joinP src bad) = none)
    (hbadd : isdir fs1 (joinP src bad) = true) :
    sauvegarder_et_chiffrer fs src dstOpt kp ks =
      .err (.isADirectory (joinP src bad)) fs1 := by
  have hstep : backupStep (ks.getD (genKey fs.ctr)) src
      (dstOpt.getD (src ++ chiffreSuffix)) fs1 bad =
      .err (.isADirectory (joinP src bad)) fs1 := by
    simp only [backupStep, copieEtChiffre, hbadf, hbadd, if_true]
  cases ks with
  | some k =>
    simp only [fsAfterKeygen, Option.getD_some] at hpre hstep
    simp only [sauvegarder_et_chiffrer, hdir, if_true, Option.getD_some] at *
    simp only [hex, if_true, hlist, runList_append, hpre, runList, hstep]
  | none =>
    simp only [fsAfterKeygen, Option.getD_none] at hpre hstep
    simp only [sauvegarder_et_chiffrer, isdir_withCtr, hdir, if_true,
      Option.getD_none, pathExists_withCtr, hex, listdir_withCtr, hlist,
      runList_append, hpre, runList, hstep]

/-- C7: at the end of a successful backup run the key is persisted according
to three mutually exclusive cases (source lines 89-98).  First conjunct: an
explicit key path receives the run's key (the explicit key if one was
supplied, else the freshly generated one).  Second conjunct: with neither key
path nor explicit key, the freshly generated key is written to
`join(dirname(final destination), 'cle.key')`, where the final destination
`destFinal` is the value the branch on the source kind leaves in
`chemin_sauvegarde`.  Third conjunct: with an explicit key and no key path no
key file is written at all — every file of the final state either existed
before the run or is a data artifact carrying the `.encrypted` suffix. -/
theorem C7_key_persistence_three_cases (fs fs' : FS) (src : Path)
    (dstOpt kp : Option Path) (ks : Option Bytes)
    (h : sauvegarder_et_chiffrer fs src dstOpt kp ks = .ok fs') :
    (∀ cp, kp = some cp →
      lookupFile fs' cp = some (.plain (ks.getD (genKey fs.ctr)))) ∧
    (kp = none → ks = none →
      ∃ sp, destFinal fs src dstOpt = some sp ∧
        lookupFile fs' (joinP (dirname sp) keyName) =
          some (.plain (genKey fs.ctr))) ∧
    (kp = none → ∀ k, ks = some k → ∀ p, isfile fs' p = true →
      isfile fs p = true ∨ endsWith encSuffix p = true) := by
  obtain ⟨fsB, hnew, hpc⟩ := sauvegarder_ok_inv fs src dstOpt kp ks fs' h
  refine ⟨?_, ?_, ?_⟩
  · rintro cp rfl
    simp only [persistCle, Res.ok.injEq] at hpc
    rw [← hpc, lookupFile_writeFile_self]
  · rintro rfl rfl
    cases hdf : destFinal fs src dstOpt with
    | none =>
      rw [hdf] at hpc
      simp [persistCle] at hpc
    | some sp =>
      rw [hdf] at hpc
      simp only [persistCle, Option.getD_none, Res.ok.injEq] at hpc
      exact ⟨sp, rfl, by rw [← hpc, lookupFile_writeFile_self]⟩
  · rintro rfl k rfl p hp
    simp only [persistCle, Option.getD_some, Res.ok.injEq] at hpc
    rw [← hpc] at hp
    exact hnew p hp

/-- Witness for C10: source directory `s` with a subdirectory child `s/sub`,
backed up into the existing destination `out` under explicit key `[7]`,
aborts with `IsADirectoryError` before touching anything. -/
theorem C10_subdirectory_child_aborts_backup_witness :
    sauvegarder_et_chiffrer
      { files := [],
        dirs := [("s".toList, ["sub".toList]), ("s/sub".toList, []),
                 ("out".toList, [])], ctr := 0 }
      "s".toList (some "out".toList) none (some [7]) =
      .err (.isADirectory (joinP "s".toList "sub".toList))
        { files := [],
          dirs := [("s".toList, ["sub".toList]), ("s/sub".toList, []),
                   ("out".toList, [])], ctr := 0 } :=
  C10_subdirectory_child_aborts_backup
    { files := [],
      dirs := [("s".toList, ["sub".toList]), ("s/sub".toList, []),
               ("out".toList, [])], ctr := 0 }
    { files := [],
      dirs := [("s".toList, ["sub".toList]), ("s/sub".toList, []),
               ("out".toList, [])], ctr := 0 }
    "s".toList (some "out".toList) none (some [7]) [] [] "sub".toList
    (by decide) (by decide) (by decide) rfl (by decide) (by decide)

/-- Witness for C7: backing up `a.txt` with explicit key path `k.key` and
explicit key `[7]` writes exactly that key there; the other two policy cases
hold vacuously at this instantiation. -/
theorem C7_key_persistence_three_cases_witness :
    (∀ cp, (some "k.key".toList : Option Path) = some cp →
      lookupFile
        { files := [("k.key".toList, .plain [7]),
                    ("a.txt.encrypted".toList, .token [7] 0 (.plain [104])),
                    ("a.txt".toList, .plain [104])], dirs := [], ctr := 1 }
        cp = some (.plain ((some [7] : Option Bytes).getD (genKey 0)))) ∧
    ((some "k.key".toList : Option Path) = none → (some [7] : Option Bytes) = none →
      ∃ sp, destFinal
          { files := [("a.txt".toList, .plain [104])], dirs := [], ctr := 0 }
          "a.txt".toList none = some sp ∧
        lookupFile
          { files := [("k.key".toList, .plain [7]),
                      ("a.txt.encrypted".toList, .token [7] 0 (.plain [104])),
                      ("a.txt".toList, .plain [104])], dirs := [], ctr := 1 }
          (joinP (dirname sp) keyName) = some (.plain (genKey 0))) ∧
    ((some "k.key".toList : Option Path) = none → ∀ k,
      (some [7] : Option Bytes) = some k → ∀ p,
      isfile
        { files := [("k.key".toList, .plain [7]),
                    ("a.txt.encrypted".toList, .token [7] 0 (.plain [104])),
                    ("a.txt".toList, .plain [104])], dirs := [], ctr := 1 }
        p = true →
      isfile { files := [("a.txt".toList, .plain [104])], dirs := [], ctr := 0 }
        p = true ∨ endsWith encSuffix p = true) :=
  C7_key_persistence_three_cases
    { files := [("a.txt".toList, .plain [104])], dirs := [], ctr := 0 }
    { files := [("k.key".toList, .plain [7]),
                ("a.txt.encrypted".toList, .token [7] 0 (.plain [104])),
                ("a.txt".toList, .plain [104])], dirs := [], ctr := 1 }
    "a.txt".toList none (some "k.key".toList) (some [7]) (by decide)

/-- C6 counterexample: backing up the single file `a.txt` with no destination
argument (and default key handling) creates TWO new files, not exactly one:
the sibling `a.txt.encrypted` and the key file `cle.key`, which did not exist
before, is distinct from the `.encrypted` artifact, and is created by the
same run. -/
theorem C6_counterexample_two_new_files :
    Res.post
      (sauvegarder_et_chiffrer
        { files := [("a.txt".toList, .plain [1])], dirs := [], ctr := 0 }
        "a.txt".toList none none none)
      (fun fs2 => isfile fs2 keyName && isfile fs2 "a.txt.encrypted".toList) =
      true ∧
    keyName ≠ "a.txt.encrypted".toList ∧
    isfile { files := [("a.txt".toList, .plain [1])], dirs := [], ctr := 0 }
      keyName = false := by
  exact ⟨by decide, by decide, by decide⟩

/-- C6 amended: backing up a single-file source with no destination argument
creates the sibling `<source>.encrypted` holding the source's contents sealed
under the run's key, leaves the source file completely unchanged, and creates
no other file apart from the key file that the key-persistence policy may
write (`persistKeyPath`).  The hypotheses keep the key file, when one is
written, away from the two data paths — otherwise the key write would
clobber them. -/
theorem C6_single_file_sibling_amended (fs : FS) (src : Path)
    (kp : Option Path) (ks : Option Bytes) (d : Data)
    (hdir : isdir fs src = false)
    (hfile : lookupFile fs src = some d)
    (hkp : ∀ cp, kp = some cp → cp ≠ src ∧ cp ≠ src ++ encSuffix)
    (hkd : joinP (dirname (src ++ encSuffix)) keyName ≠ src) :
    ∃ fs', sauvegarder_et_chiffrer fs src none kp ks = .ok fs' ∧
      lookupFile fs' src = some d ∧
      (∃ nn, lookupFile fs' (src ++ encSuffix) =
        some (.token (ks.getD (genKey fs.ctr)) nn d)) ∧
      (∀ p, isfile fs' p = true → isfile fs p = true ∨ p = src ++ encSuffix ∨
        persistKeyPath (some (src ++ encSuffix)) kp ks = some p) := by
  have hsne : src ≠ src ++ encSuffix := fun h => encAppend_ne_self src h.symm
  have hA : ∀ (fsK : FS) (cle : Bytes),
      (∀ q, lookupFile fsK q = lookupFile fs q) →
      lookupFile { writeFile (writeFile fsK (src ++ encSuffix) d)
          (src ++ encSuffix) (.token cle fsK.ctr d)
          with ctr := fsK.ctr + 1 } src = some d ∧
      lookupFile { writeFile (writeFile fsK (src ++ encSuffix) d)
          (src ++ encSuffix) (.token cle fsK.ctr d)
          with ctr := fsK.ctr + 1 } (src ++ encSuffix) =
        some (.token cle fsK.ctr d) ∧
      ∀ p, (lookupFile { writeFile (writeFile fsK (src ++ encSuffix) d)
          (src ++ encSuffix) (.token cle fsK.ctr d)
          with ctr := fsK.ctr + 1 } p).isSome = true →
        (lookupFile fs p).isSome = true ∨ p = src ++ encSuffix := by
    intro fsK cle hKq
    refine ⟨?_, ?_, ?_⟩
    · rw [lookupFile_withCtr, lookupFile_writeFile_ne _ _ _ _ hsne,
        lookupFile_writeFile_ne _ _ _ _ hsne, hKq src, hfile]
    · rw [lookupFile_withCtr, lookupFile_writeFile_self]
    · intro p hp
      by_cases hpd : p = src ++ encSuffix
      · exact Or.inr hpd
      · left
        rw [lookupFile_withCtr, lookupFile_writeFile_ne _ _ _ _ hpd,
          lookupFile_writeFile_ne _ _ _ _ hpd, hKq p] at hp
        exact hp
  have hpost : ∀ (fsA : FS) (cle cle2 : Bytes) (nn : Nat) (kw : Path),
      lookupFile fsA src = some d →
      lookupFile fsA (src ++ encSuffix) = some (.token cle nn d) →
      (∀ p, (lookupFile fsA p).isSome = true →
        (lookupFile fs p).isSome = true ∨ p = src ++ encSuffix) →
      kw ≠ src → kw ≠ src ++ encSuffix →
      lookupFile (writeFile fsA kw (.plain cle2)) src = some d ∧
      (∃ n2, lookupFile (writeFile fsA kw (.plain cle2)) (src ++ encSuffix) =
        some (.token cle n2 d)) ∧
      ∀ p, isfile (writeFile fsA kw (.plain cle2)) p = true →
        isfile fs p = true ∨ p = src ++ encSuffix ∨ kw = p := by
    intro fsA cle cle2 nn kw h1 h2 h3 hw1 hw2
    refine ⟨?_, ⟨nn, ?_⟩, ?_⟩
    · rw [lookupFile_writeFile_ne _ _ _ _ (fun h => hw1 h.symm), h1]
    · rw [lookupFile_writeFile_ne _ _ _ _ (fun h => hw2 h.symm), h2]
    · intro p hp
      by_cases hpk : p = kw
      · exact Or.inr (Or.inr hpk.symm)
      · rw [isfile, lookupFile_writeFile_ne _ _ _ _ hpk] at hp
        rcases h3 p hp with hl | hr
        · exact Or.inl hl
        · exact Or.inr (Or.inl hr)
  cases ks with
  | some k =>
    have hcopie := copieEtChiffre_ok k fs src (src ++ encSuffix) d hfile
    obtain ⟨hA1, hA2, hA3⟩ := hA fs k (fun q => rfl)
    cases kp with
    | some cp =>
      obtain ⟨hcp1, hcp2⟩ := hkp cp rfl
      obtain ⟨hp1, hp2, hp3⟩ := hpost _ k k fs.ctr cp hA1 hA2 hA3 hcp1 hcp2
      refine ⟨_, ?_, hp1, hp2, ?_⟩
      · simp only [sauvegarder_et_chiffrer, hdir, Bool.false_eq_true, if_false,
          isfile, hfile, Option.isSome_some, if_true, hcopie, persistCle]
      · intro p hp
        rcases hp3 p hp with hl | hm | hr
        · exact Or.inl hl
        · exact Or.inr (Or.inl hm)
        · exact Or.inr (Or.inr (hr ▸ rfl))
    | none =>
      refine ⟨_, ?_, hA1, ⟨fs.ctr, hA2⟩, ?_⟩
      · simp only [sauvegarder_et_chiffrer, hdir, Bool.false_eq_true, if_false,
          isfile, hfile, Option.isSome_some, if_true, hcopie, persistCle]
      · intro p hp
        rcases hA3 p hp with hl | hr
        · exact Or.inl hl
        · exact Or.inr (Or.inl hr)
  | none =>
    have hfileK : lookupFile { fs with ctr := fs.ctr + 1 } src = some d := hfile
    have hcopie := copieEtChiffre_ok (genKey fs.ctr) { fs with ctr := fs.ctr + 1 }
      src (src ++ encSuffix) d hfileK
    obtain ⟨hA1, hA2, hA3⟩ := hA { fs with ctr := fs.ctr + 1 } (genKey fs.ctr)
      (fun q => rfl)
    cases kp with
    | some cp =>
      obtain ⟨hcp1, hcp2⟩ := hkp cp rfl
      obtain ⟨hp1, hp2, hp3⟩ := hpost _ (genKey fs.ctr) (genKey fs.ctr) _ cp
        hA1 hA2 hA3 hcp1 hcp2
      refine ⟨_, ?_, hp1, hp2, ?_⟩
      · simp only [sauvegarder_et_chiffrer, isdir_withCtr, hdir,
          Bool.false_eq_true, if_false, isfile, lookupFile_withCtr, hfile,
          Option.isSome_some, if_true, hcopie, persistCle]
      · intro p hp
        rcases hp3 p hp with hl | hm | hr
        · exact Or.inl hl
        · exact Or.inr (Or.inl hm)
        · exact Or.inr (Or.inr (hr ▸ rfl))
    | none =>
      have hkw2 : joinP (dirname (src ++ encSuffix)) keyName ≠ src ++ encSuffix :=
        keyPath_ne_encAppend _ _
      obtain ⟨hp1, hp2, hp3⟩ := hpost _ (genKey fs.ctr) (genKey fs.ctr) _
        (joinP (dirname (src ++ encSuffix)) keyName) hA1 hA2 hA3 hkd hkw2
      refine ⟨_, ?_, hp1, hp2, ?_⟩
      · simp only [sauvegarder_et_chiffrer, isdir_withCtr, hdir,
          Bool.false_eq_true, if_false, isfile, lookupFile_withCtr, hfile,
          Option.isSome_some, if_true, hcopie, persistCle]
      · intro p hp
        rcases hp3 p hp with hl | hm | hr
        · exact Or.inl hl
        · exact Or.inr (Or.inl hm)
        · exact Or.inr (Or.inr (hr ▸ rfl))

/-- Witness for the amended C6: backing up `b.txt` (contents `[2]`) with no
destination and default key handling produces `b.txt.encrypted` sealed under
the generated key, leaves `b.txt` unchanged, and creates nothing else beyond
the policy's key file. -/
theorem C6_single_file_sibling_amended_witness :
    ∃ fs', sauvegarder_et_chiffrer
        { files := [("b.txt".toList, .plain [2])], dirs := [], ctr := 0 }
        "b.txt".toList none none none = .ok fs' ∧
      lookupFile fs' "b.txt".toList = some (.plain [2]) ∧
      (∃ nn, lookupFile fs' ("b.txt".toList ++ encSuffix) =
        some (.token ((none : Option Bytes).getD (genKey 0)) nn (.plain [2]))) ∧
      (∀ p, isfile fs' p = true →
        isfile { files := [("b.txt".toList, .plain [2])], dirs := [], ctr := 0 }
          p = true ∨ p = "b.txt".toList ++ encSuffix ∨
        persistKeyPath (some ("b.txt".toList ++ encSuffix)) none none = some p) :=
  C6_single_file_sibling_amended
    { files := [("b.txt".toList, .plain [2])], dirs := [], ctr := 0 }
    "b.txt".toList none none (.plain [2]) (by decide) (by decide)
    (fun cp h => Option.noConfusion h) (by decide)

theorem dropWhile_cons_head {α : Type} (p : α → Bool) (l : List α) (c : α)
    (r : List α) (h : l.dropWhile p = c :: r) : p c = false := by
  induction l with
  | nil => exact absurd h (by simp)
  | cons a as ih =>
    rw [List.dropWhile_cons] at h
    by_cases hp : p a = true
    · rw [if_pos hp] at h
      exact ih h
    · rw [if_neg hp] at h
      obtain ⟨rfl, -⟩ := List.cons_eq_cons.mp h
      exact Bool.not_eq_true _ |>.mp hp

/-- Decomposition of a path at its last slash: either there is no slash (the
dirname is empty) or the path is `dirname ++ '/' :: basename`. -/
theorem dirname_decomp (p : Path) :
    dirname p = [] ∨ p = dirname p ++ '/' :: basename p := by
  cases hr : p.reverse.dropWhile (fun c => c ≠ '/') with
  | nil => left; rw [dirname, hr]; rfl
  | cons c r' =>
    right
    have hc : c = '/' := by
      have := dropWhile_cons_head (fun c => c ≠ '/') p.reverse c r' hr
      simpa using this
    subst hc
    have hsplit : p.reverse.takeWhile (fun c => c ≠ '/') ++ ('/' :: r') =
        p.reverse := by
      rw [← hr]
      exact List.takeWhile_append_dropWhile _ _
    have hp : p = r'.reverse ++ '/' ::
        (p.reverse.takeWhile (fun c => c ≠ '/')).reverse := by
      have h2 := congrArg List.reverse hsplit
      rw [List.reverse_append, List.reverse_reverse, List.reverse_cons,
        List.append_assoc, List.singleton_append] at h2
      exact h2.symm
    have hd : dirname p = r'.reverse := by rw [dirname, hr]; rfl
    rw [hd, basename]
    exact hp

/-- The key file path `join(dirname(d), 'cle.key')` is never strictly inside
the directory `d` itself: `cle.key` contains no slash, so the would-be
remainder after `d ++ "/"` cannot match. -/
theorem isUnder_keyPath_false (d : Path) :
    isUnder d (joinP (dirname d) keyName) = false := by
  apply Bool.eq_false_iff.mpr
  intro h
  obtain ⟨t, ht⟩ := (leadsWith_iff_exists _ _).mp h
  have key : ∀ dn bn t2 : Path,
      dn ++ '/' :: keyName = ((dn ++ '/' :: bn) ++ ['/']) ++ t2 →
      ('/' : Char) ∈ keyName := by
    intro dn bn t2 hht
    rw [List.append_assoc, List.append_assoc] at hht
    have h2 := List.append_cancel_left hht
    rw [List.cons_append] at h2
    obtain ⟨-, h3⟩ := List.cons_eq_cons.mp h2
    rw [h3]
    exact List.mem_append.mpr (Or.inr (List.mem_append.mpr (Or.inl (by decide))))
  have hslash : ('/' : Char) ∈ keyName := by
    by_cases hdn : dirname d = []
    · rw [hdn] at ht
      rw [show joinP [] keyName = keyName from rfl] at ht
      rw [ht]
      exact List.mem_append.mpr (Or.inl (List.mem_append.mpr (Or.inr (by decide))))
    · rcases dirname_decomp d with hd | hd
      · exact absurd hd hdn
      · rw [joinP, if_neg hdn] at ht
        nth_rewrite 2 [hd] at ht
        exact key (dirname d) (basename d) t ht
  exact absurd hslash (by decide)

/-- C3 counterexample: backing up directory `docs` (one child file) with no
destination and no key arguments succeeds, but the key file is NOT created
inside the destination directory `docs_chiffre`: `docs_chiffre/cle.key` does
not exist in the final state — the key lands at
`join(dirname('docs_chiffre'), 'cle.key')`, i.e. the sibling path `cle.key`. -/
theorem C3_counterexample_key_outside_destination :
    Res.post
      (sauvegarder_et_chiffrer
        { files := [("docs/a.txt".toList, .plain [1])],
          dirs := [("docs".toList, ["a.txt".toList])], ctr := 0 }
        "docs".toList none none none)
      (fun fs2 => !(isfile fs2 "docs_chiffre/cle.key".toList) &&
        isfile fs2 "cle.key".toList) = true := by
  decide

/-- C3 amended: backing up a directory source whose listing holds `N`
(pairwise distinct) child files, with no destination and no key arguments,
succeeds and produces the default destination `<source>_chiffre` containing
exactly the `N` pairwise-distinct files `<original>.encrypted` — and nothing
else; the `cle.key` file holding the generated key is written to
`join(dirname(<source>_chiffre), 'cle.key')`, which is a sibling of the
destination directory and provably NOT inside it. -/
theorem C3_directory_fanout_amended (fs : FS) (src : Path) (names : List Path)
    (hs : src ≠ [])
    (hdir : isdir fs src = true)
    (hn : listdir fs src = names)
    (hnodup : names.Nodup)
    (hfiles : ∀ n ∈ names, (lookupFile fs (joinP src n)).isSome = true)
    (hfresh : ∀ p, isUnder (src ++ chiffreSuffix) p = true →
      isfile fs p = false) :
    ∃ fs', sauvegarder_et_chiffrer fs src none none none = .ok fs' ∧
      (∀ p, (isfile fs' p = true ∧ isUnder (src ++ chiffreSuffix) p = true) ↔
        p ∈ names.map (fun n => joinP (src ++ chiffreSuffix) (n ++ encSuffix))) ∧
      (names.map (fun n => joinP (src ++ chiffreSuffix) (n ++ encSuffix))).Nodup ∧
      (names.map (fun n => joinP (src ++ chiffreSuffix) (n ++ encSuffix))).length
        = names.length ∧
      lookupFile fs' (joinP (dirname (src ++ chiffreSuffix)) keyName) =
        some (.plain (genKey fs.ctr)) ∧
      isUnder (src ++ chiffreSuffix)
        (joinP (dirname (src ++ chiffreSuffix)) keyName) = false := by
  have hsne : src ++ chiffreSuffix ≠ [] := by
    intro h
    have h2 := congrArg List.length h
    rw [List.length_append] at h2
    have hc : chiffreSuffix.length = 8 := by decide
    rw [hc] at h2
    simp only [List.length_nil] at h2
    omega
  have hnesrc : src ≠ src ++ chiffreSuffix :=
    fun h => defaultDest_ne_src src h.symm
  have hdisj : ∀ n ∈ names, ∀ m ∈ names,
      joinP (src ++ chiffreSuffix) (m ++ encSuffix) ≠ joinP src n :=
    fun n _ m _ h => srcChild_ne_defaultDest src n (m ++ encSuffix) hs h.symm
  have hfinish : ∀ fs2 : FS,
      (∀ p, (∀ n ∈ names, p ≠ joinP (src ++ chiffreSuffix) (n ++ encSuffix)) →
        lookupFile fs2 p = lookupFile fs p) →
      (∀ n ∈ names, ∃ nn d, lookupFile fs (joinP src n) = some d ∧
        lookupFile fs2 (joinP (src ++ chiffreSuffix) (n ++ encSuffix)) =
          some (.token (genKey fs.ctr) nn d)) →
      (∀ p, (isfile (writeFile fs2
          (joinP (dirname (src ++ chiffreSuffix)) keyName)
          (.plain (genKey fs.ctr))) p = true ∧
        isUnder (src ++ chiffreSuffix) p = true) ↔
        p ∈ names.map (fun n => joinP (src ++ chiffreSuffix) (n ++ encSuffix))) := by
    intro fs2 hpres hcont p
    have hpkey : p = joinP (dirname (src ++ chiffreSuffix)) keyName →
        isUnder (src ++ chiffreSuffix) p = false := by
      rintro rfl
      exact isUnder_keyPath_false _
    constructor
    · rintro ⟨hf, hU⟩
      have hpk : p ≠ joinP (dirname (src ++ chiffreSuffix)) keyName := by
        intro he
        rw [hpkey he] at hU
        exact Bool.false_ne_true hU
      rw [isfile, lookupFile_writeFile_ne _ _ _ _ hpk] at hf
      by_cases hin : p ∈ names.map
          (fun n => joinP (src ++ chiffreSuffix) (n ++ encSuffix))
      · exact hin
      · exfalso
        have hnotdest : ∀ n ∈ names,
            p ≠ joinP (src ++ chiffreSuffix) (n ++ encSuffix) := by
          intro n hmem he
          exact hin (List.mem_map.mpr ⟨n, hmem, he.symm⟩)
        rw [hpres p hnotdest] at hf
        rw [show (lookupFile fs p).isSome = isfile fs p from rfl,
          hfresh p hU] at hf
        exact Bool.false_ne_true hf
    · intro hin
      obtain ⟨n, hmem, rfl⟩ := List.mem_map.mp hin
      obtain ⟨nn, d, -, hw⟩ := hcont n hmem
      refine ⟨?_, isUnder_joinP _ _ hsne⟩
      rw [isfile, lookupFile_writeFile_ne _ _ _ _
        (fun h => keyPath_ne_encPath _ _ _ h.symm), hw]
      rfl
  have hinj : Function.Injective
      (fun n => joinP (src ++ chiffreSuffix) (n ++ encSuffix)) := by
    intro a b hab
    exact List.append_cancel_right (joinP_inj_right _ _ _ hab)
  by_cases hex : pathExists fs (src ++ chiffreSuffix) = true
  · obtain ⟨fs2, hrun, -, hpres, hcont⟩ := backupLoop_ok (genKey fs.ctr) src
      (src ++ chiffreSuffix) { fs with ctr := fs.ctr + 1 } names
      (fun n hmem => hfiles n hmem) hdisj
    refine ⟨writeFile fs2 (joinP (dirname (src ++ chiffreSuffix)) keyName)
      (.plain (genKey fs.ctr)), ?_, hfinish fs2 hpres hcont,
      hnodup.map hinj, List.length_map _ _,
      lookupFile_writeFile_self _ _ _, isUnder_keyPath_false _⟩
    simp only [sauvegarder_et_chiffrer, isdir_withCtr, hdir, if_true,
      Option.getD_none, pathExists_withCtr, hex, listdir_withCtr, hn,
      hrun, persistCle]
  · obtain ⟨fs2, hrun, -, hpres2, hcont2⟩ := backupLoop_ok (genKey fs.ctr) src
      (src ++ chiffreSuffix)
      (makedirs { fs with ctr := fs.ctr + 1 } (src ++ chiffreSuffix)) names
      (fun n hmem => hfiles n hmem) hdisj
    have hpres : ∀ p,
        (∀ n ∈ names, p ≠ joinP (src ++ chiffreSuffix) (n ++ encSuffix)) →
        lookupFile fs2 p = lookupFile fs p := hpres2
    have hcont : ∀ n ∈ names, ∃ nn d, lookupFile fs (joinP src n) = some d ∧
        lookupFile fs2 (joinP (src ++ chiffreSuffix) (n ++ encSuffix)) =
          some (.token (genKey fs.ctr) nn d) := hcont2
    refine ⟨writeFile fs2 (joinP (dirname (src ++ chiffreSuffix)) keyName)
      (.plain (genKey fs.ctr)), ?_, hfinish fs2 hpres hcont,
      hnodup.map hinj, List.length_map _ _,
      lookupFile_writeFile_self _ _ _, isUnder_keyPath_false _⟩
    have hld : listdir (makedirs { fs with ctr := fs.ctr + 1 }
        (src ++ chiffreSuffix)) src = names := by
      rw [listdir_makedirs_ne _ _ _ hnesrc, listdir_withCtr, hn]
    simp only [sauvegarder_et_chiffrer, isdir_withCtr, hdir, if_true,
      Option.getD_none, pathExists_withCtr, hex, Bool.false_eq_true, if_false,
      hld, hrun, persistCle]

/-- Witness for the amended C3: a directory `docs` with two child files
`a.txt` and `b.txt`, backed up with defaults, yields exactly the two sealed
files inside `docs_chiffre` and the key at the sibling path `cle.key`. -/
theorem C3_directory_fanout_amended_witness :
    ∃ fs', sauvegarder_et_chiffrer
        { files := [("docs/a.txt".toList, .plain [1]),
                    ("docs/b.txt".toList, .plain [2])],
          dirs := [("docs".toList, ["a.txt".toList, "b.txt".toList])],
          ctr := 0 }
        "docs".toList none none none = .ok fs' ∧
      (∀ p, (isfile fs' p = true ∧
          isUnder ("docs".toList ++ chiffreSuffix) p = true) ↔
        p ∈ ["a.txt".toList, "b.txt".toList].map
          (fun n => joinP ("docs".toList ++ chiffreSuffix) (n ++ encSuffix))) ∧
      (["a.txt".toList, "b.txt".toList].map
        (fun n => joinP ("docs".toList ++ chiffreSuffix) (n ++ encSuffix))).Nodup ∧
      (["a.txt".toList, "b.txt".toList].map
        (fun n => joinP ("docs".toList ++ chiffreSuffix) (n ++ encSuffix))).length
        = (["a.txt".toList, "b.txt".toList] : List Path).length ∧
      lookupFile fs' (joinP (dirname ("docs".toList ++ chiffreSuffix)) keyName) =
        some (.plain (genKey 0)) ∧
      isUnder ("docs".toList ++ chiffreSuffix)
        (joinP (dirname ("docs".toList ++ chiffreSuffix)) keyName) = false :=
  C3_directory_fanout_amended
    { files := [("docs/a.txt".toList, .plain [1]),
                ("docs/b.txt".toList, .plain [2])],
      dirs := [("docs".toList, ["a.txt".toList, "b.txt".toList])], ctr := 0 }
    "docs".toList ["a.txt".toList, "b.txt".toList]
    (by decide) (by decide) (by decide) (by decide)
    (by decide)
    (by
      intro p hU
      by_cases h1 : p = "docs/a.txt".toList
      · subst h1; exact absurd hU (by decide)
      · by_cases h2 : p = "docs/b.txt".toList
        · subst h2; exact absurd hU (by decide)
        · have h1' : ¬ ("docs/a.txt".toList = p) := fun h => h1 h.symm
          have h2' : ¬ ("docs/b.txt".toList = p) := fun h => h2 h.symm
          have hgen : ∀ (a b : Path) (da db : Data) (nn : Nat)
              (dd : List (Path × List Path)), ¬ (a = p) → ¬ (b = p) →
              isfile { files := [(a, da), (b, db)], dirs := dd, ctr := nn } p =
                false := by
            intro a b da db nn dd ha hb
            simp [isfile, lookupFile, findData, ha, hb]
          exact hgen _ _ _ _ _ _ h1' h2')

end Cryptage
